import Mathlib

/-!
Verification of the gllmc (Go LLM Core) local-inference pipeline against its
specification.  The development shallowly embeds the inference core:

* the WordPiece tokenizer of the embedding path
  (`loadWordPiece`, `basicTokens`, `tokenizeWord`, `encode`),
* the fallback hash embedder (`embedOne`, `hashEmbed`),
* the direct-lookup tokenizer and the greedy generation loops of the
  generation path (`bpeTokenizer.Encode`, `Generate`, `GenerateWithCallback`).

Modelling conventions, recorded once here:

* Go byte strings are modelled as `List Char`; Go `int`/`int64` token ids are
  `Nat` (every id in the code is a vocabulary index or an `argmax` result,
  hence non-negative); `float32`/`float64` logits are `ℚ`, with the one
  genuinely non-rational operation (`math.Sqrt`) abstracted as an arbitrary
  function parameter `sqrtQ : ℚ → ℚ`.
* The ONNX runtime session is an external collaborator (spec §4.3); it is
  abstracted as a total function `GenSession` from the three input tensors to
  an output tensor (a shape together with flat data).  The Go code's
  rank-3 shape check and last-row slicing are kept (`stepNext`); the
  `float32`-type assertion and `Run` failures of the FFI layer are outside
  the model.
* Go `unicode.IsLetter/IsDigit` and `strings.ToLower` use full Unicode
  tables; the model uses `Char.isAlpha`, `Char.isDigit`, `Char.toLower`.
  No claim depends on which characters count as letters.
* Loops are translated to structural recursion.  The generation loops
  recurse on the remaining token budget (`fuel`), exactly the Go loop
  counter.  The WordPiece word loop is split into the first iteration
  (`tokenizeWord`, where Go's `len(out) > 0` test is false) and the
  remaining iterations (`goRest`, where it is true); `goRest` recurses on a
  length bound, which suffices because every non-first iteration consumes
  at least one character.
-/

/-! ## WordPiece tokenizer (embedding path, Go file `part_003`) -/

/-- Lookup in the WordPiece vocabulary, modelling Go's `w.vocab[candidate]`
map access.  The vocabulary is an association list with unique keys (the
loader inserts first occurrences only). -/
def wpLookup (vocab : List (List Char × Nat)) (key : List Char) : Option Nat :=
  (vocab.find? (fun p => p.1 == key)).map (fun p => p.2)

/-- Candidate construction of `tokenizeWord`: the first piece of a word is
looked up as-is, every later piece with the continuation marker `##`
prepended (Go: `if len(out) > 0 { candidate = "##" + sub }`). -/
def wpCandidate (isFirst : Bool) (sub : List Char) : List Char :=
  if isFirst then sub else '#' :: '#' :: sub

/-- Inner loop of `tokenizeWord`: try prefix lengths `e, e-1, ..., 1` of
`tok` and return the first (longest) whose candidate is in the vocabulary,
together with its id (Go: `for end > 0 { ... end-- }`). -/
def findPieceFrom (vocab : List (List Char × Nat)) (isFirst : Bool)
    (tok : List Char) : Nat → Option (Nat × Nat)
  | 0 => none
  | e + 1 =>
    match wpLookup vocab (wpCandidate isFirst (tok.take (e + 1))) with
    | some id => some (e + 1, id)
    | none => findPieceFrom vocab isFirst tok e

/-- Longest-prefix search starting from the full remaining word
(Go: `end := len(tok)`). -/
def findPiece (vocab : List (List Char × Nat)) (isFirst : Bool)
    (tok : List Char) : Option (Nat × Nat) :=
  findPieceFrom vocab isFirst tok tok.length

/-- The `wordPiece` tokenizer record of the Go source. -/
structure wordPiece where
  vocab : List (List Char × Nat)
  unkID : Nat
  clsID : Nat
  sepID : Nat
  padID : Nat
deriving DecidableEq

/-- `strings.TrimSpace`: drop whitespace from both ends. -/
def trimChars (s : List Char) : List Char :=
  (((s.dropWhile Char.isWhitespace).reverse).dropWhile Char.isWhitespace).reverse

/-- Vocabulary construction of `loadWordPiece`: line `i` maps the trimmed
token to id `i`; empty lines are skipped (but still counted) and duplicate
tokens keep their first id. -/
def buildVocab : List (List Char) → Nat → List (List Char × Nat) → List (List Char × Nat)
  | [], _, acc => acc
  | line :: rest, i, acc =>
    let tokC := trimChars line
    if tokC.isEmpty then buildVocab rest (i + 1) acc
    else if (wpLookup acc tokC).isSome then buildVocab rest (i + 1) acc
    else buildVocab rest (i + 1) (acc ++ [(tokC, i)])

/-- `loadWordPiece` on the list of lines of `vocab.txt`: builds the
vocabulary and resolves the special ids, with the Go defaults
(`[UNK]`→100, `[CLS]`→101, `[SEP]`→102, `[PAD]`→0) when absent. -/
def loadWordPiece (lines : List (List Char)) : wordPiece :=
  let vp := buildVocab lines 0 []
  ⟨vp,
    (wpLookup vp ['[', 'U', 'N', 'K', ']']).getD 100,
    (wpLookup vp ['[', 'C', 'L', 'S', ']']).getD 101,
    (wpLookup vp ['[', 'S', 'E', 'P', ']']).getD 102,
    (wpLookup vp ['[', 'P', 'A', 'D', ']']).getD 0⟩

/-- Test for the continuation marker, modelling Go's
`strings.HasPrefix(cur, "##")`. -/
def hashMarked : List Char → Bool
  | a :: b :: _ => a == '#' && b == '#'
  | _ => false

/-- The characters the first iteration of the word loop consumes: the
matched piece `tok[:e]`, with a leading `##` stripped when the piece itself
happens to start with the marker (Go: `if strings.HasPrefix(cur, "##")
{ cur = cur[2:] }; tok = tok[len(cur):]`). -/
def firstCur (tok : List Char) (e : Nat) : List Char :=
  let cand := tok.take e
  if hashMarked cand then cand.drop 2 else cand

/-- Non-first iterations of the word loop of `tokenizeWord`.  Here the
candidate always carries the `##` marker, so the stripped piece is exactly
`tok[:e]` and each found piece consumes `e ≥ 1` characters; the fuel
argument bounds the remaining word length, so `tok.length` fuel runs the
loop to completion. -/
def goRest (vocab : List (List Char × Nat)) (unkID : Nat) :
    Nat → List Char → List Nat
  | 0, _ => []
  | fuel + 1, tok =>
    if tok.isEmpty then []
    else
      match findPiece vocab false tok with
      | none => [unkID]
      | some (e, id) => id :: goRest vocab unkID fuel (tok.drop e)

/-- `tokenizeWord` of the Go source: repeated longest-prefix matching of
one basic token, emitting a single unknown id and stopping at the first
failed search. -/
def tokenizeWord (vocab : List (List Char × Nat)) (unkID : Nat)
    (tok : List Char) : List Nat :=
  if tok.isEmpty then []
  else
    match findPiece vocab true tok with
    | none => [unkID]
    | some (e, id) =>
      let rest := tok.drop (firstCur tok e).length
      id :: goRest vocab unkID rest.length rest

/-- The word loop run entirely in non-first mode (used to state the
step-unfolding facts about `tokenizeWord`). -/
def tokenizeRest (vocab : List (List Char × Nat)) (unkID : Nat)
    (tok : List Char) : List Nat :=
  goRest vocab unkID tok.length tok

/-- Accumulator-based run splitter of `basicTokens` (Go: build up runs of
letters/digits in a `strings.Builder`, flushing at every separator). -/
def basicTokensAux : List Char → List Char → List (List Char)
  | [], buf => if buf.isEmpty then [] else [buf.reverse]
  | c :: rest, buf =>
    if c.isAlphanum then basicTokensAux rest (c :: buf)
    else if buf.isEmpty then basicTokensAux rest []
    else buf.reverse :: basicTokensAux rest []

/-- `basicTokens` of the Go source: lower-case the text and split it into
maximal runs of letters/digits, discarding all other characters. -/
def basicTokens (s : List Char) : List (List Char) :=
  basicTokensAux (s.map Char.toLower) []

/-- The wrapped piece-id sequence of `encode` before truncation:
`[CLS]`, the WordPiece ids of all basic tokens, `[SEP]`. -/
def wpWrapped (w : wordPiece) (text : List Char) : List Nat :=
  w.clsID :: ((basicTokens text).flatMap (tokenizeWord w.vocab w.unkID) ++ [w.sepID])

/-- The live sequence of `encode`: the wrapped sequence, tail-truncated to
`maxLen` when longer (Go: `if len(seq) > maxLen { seq = seq[:maxLen] }`). -/
def wpSeqT (w : wordPiece) (maxLen : Nat) (text : List Char) : List Nat :=
  if maxLen < (wpWrapped w text).length then (wpWrapped w text).take maxLen
  else wpWrapped w text

/-- Number of live (mask-1) positions produced by `encode`. -/
def wpLiveLen (w : wordPiece) (maxLen : Nat) (text : List Char) : Nat :=
  (wpSeqT w maxLen text).length

/-- `encode` of the Go source: id and mask arrays of width exactly `maxLen`,
the live sequence at the front, and positions `len(seq) ≤ i < maxLen`
holding the literal id `0` under mask `0` (Go writes `ids[i] = 0` there,
not the pad id). -/
def encode (w : wordPiece) (maxLen : Nat) (text : List Char) :
    List Nat × List Nat :=
  (wpSeqT w maxLen text
      ++ List.replicate (maxLen - (wpSeqT w maxLen text).length) 0,
    List.replicate (wpSeqT w maxLen text).length 1
      ++ List.replicate (maxLen - (wpSeqT w maxLen text).length) 0)

/-- The all-zero `token_type_ids` tensor data built in `Embed`
(Go: `ttiData := make([]int64, bsz*seq)`). -/
def tokenTypeIds (bsz seqLen : Nat) : List Nat :=
  List.replicate (bsz * seqLen) 0

/-- The embedding context width configured in `NewMiniLM`
(Go: `maxLen: 128`). -/
def miniLMMaxLen : Nat := 128

/-! ## Hash embedder (Go file `embedding_service.go`) -/

/-- UTF-8 encoding of one character, as Go hashes the UTF-8 bytes of each
token (`hsh.Write([]byte(s))`). -/
def utf8Bytes (c : Char) : List Nat :=
  let n := c.toNat
  if n < 128 then [n]
  else if n < 2048 then [192 + n / 64, 128 + n % 64]
  else if n < 65536 then [224 + n / 4096, 128 + (n / 64) % 64, 128 + n % 64]
  else [240 + n / 262144, 128 + (n / 4096) % 64, 128 + (n / 64) % 64, 128 + n % 64]

/-- 32-bit FNV-1a hash over a byte list, modelling `hash/fnv`'s `New32a`:
`h ^= b; h *= 16777619` modulo `2^32`. -/
def fnv32a (bytes : List Nat) : Nat :=
  bytes.foldl (fun h b => ((h ^^^ b) * 16777619) % 4294967296) 2166136261

/-- Run splitter for the regular expression `\pL+|\pN+` of `embedOne`:
maximal runs of letters and maximal runs of digits, kept separate.  The
`Bool` in the accumulator records the kind of the open run
(`true` = letters). -/
def runsAux : List Char → Option (Bool × List Char) → List (List Char)
  | [], none => []
  | [], some (_, buf) => [buf.reverse]
  | c :: rest, none =>
    if c.isAlpha then runsAux rest (some (true, [c]))
    else if c.isDigit then runsAux rest (some (false, [c]))
    else runsAux rest none
  | c :: rest, some (k, buf) =>
    if (if k then c.isAlpha else c.isDigit) then runsAux rest (some (k, c :: buf))
    else if c.isAlpha then buf.reverse :: runsAux rest (some (true, [c]))
    else if c.isDigit then buf.reverse :: runsAux rest (some (false, [c]))
    else buf.reverse :: runsAux rest none

/-- `wordRE.FindAllString(strings.ToLower(text), -1)` of `embedOne`. -/
def splitRuns (s : List Char) : List (List Char) :=
  runsAux (s.map Char.toLower) none

/-- The embedding dimension of the hash backend (Go: `dim: 384`). -/
def hashDim : Nat := 384

/-- `embedOne` of the hash embedder: signed bucket hashing of the word
tokens into a `hashDim`-wide vector, then L2 normalisation guarded by
`norm > 0`.  `sqrtQ` abstracts `math.Sqrt`. -/
def embedOne (sqrtQ : ℚ → ℚ) (text : List Char) : List ℚ :=
  let vec0 : List ℚ := List.replicate hashDim 0
  let tokens := splitRuns text
  if tokens.isEmpty then vec0
  else
    let vec := tokens.foldl
      (fun v tok =>
        let idx := fnv32a (tok.flatMap utf8Bytes) % hashDim
        let sign : ℚ :=
          if fnv32a ((tok ++ ['_', 'a', 'l', 't']).flatMap utf8Bytes) % 2 = 1 then -1 else 1
        v.set idx (v.getD idx 0 + sign))
      vec0
    let norm := sqrtQ ((vec.map (fun x => x * x)).sum)
    if 0 < norm then vec.map (fun x => x * (1 / norm)) else vec

/-- `hashEmbedder.Embed`: one `embedOne` per input, in order. -/
def hashEmbed (sqrtQ : ℚ → ℚ) (inputs : List (List Char)) : List (List ℚ) :=
  inputs.map (embedOne sqrtQ)

/-! ## Direct-lookup tokenizer and generation loops (Go file `part_004`) -/

/-- The minimal BPE tokenizer record of the generation path.
`eosTokenID = -1` means end-of-sequence detection is disabled. -/
structure bpeTokenizer where
  vocab : List (List Char × Nat)
  id2token : List (List Char)
  eosTokenID : Int
deriving DecidableEq

/-- Vocabulary map access of the generation tokenizer. -/
def bpeLookup (t : bpeTokenizer) (p : List Char) : Option Nat :=
  (t.vocab.find? (fun q => q.1 == p)).map (fun q => q.2)

/-- Accumulator-based splitter of `strings.Fields`: non-whitespace runs,
dropping whitespace and empty fields. -/
def strFieldsAux : List Char → List Char → List (List Char)
  | [], buf => if buf.isEmpty then [] else [buf.reverse]
  | c :: rest, buf =>
    if c.isWhitespace then
      if buf.isEmpty then strFieldsAux rest []
      else buf.reverse :: strFieldsAux rest []
    else strFieldsAux rest (c :: buf)

/-- `strings.Fields` of the Go source. -/
def strFields (s : List Char) : List (List Char) :=
  strFieldsAux s []

/-- `bpeTokenizer.Encode`: whitespace-split direct lookup, unknown words
map to id `0`, and an empty result falls back to the single id `0`. -/
def bpeTokenizer.Encode (t : bpeTokenizer) (s : List Char) : List Nat :=
  let ids := (strFields s).map
    (fun p => match bpeLookup t p with | some id => id | none => 0)
  if ids.isEmpty then [0] else ids

/-- `strings.Join(parts, " ")`: concatenate with single spaces. -/
def joinSpace : List (List Char) → List Char
  | [] => []
  | [x] => x
  | x :: y :: rest => x ++ ' ' :: joinSpace (y :: rest)

/-- `bpeTokenizer.Decode`: resolve each id via `id2token`, skipping
out-of-range ids and empty strings, and join with single spaces. -/
def bpeTokenizer.Decode (t : bpeTokenizer) (ids : List Nat) : List Char :=
  joinSpace
    (ids.filterMap
      (fun i =>
        match t.id2token.get? i with
        | some s => if s.isEmpty then none else some s
        | none => none))

/-- `bpeTokenizer.IsEOS`: true when an end-of-sequence id was resolved and
matches. -/
def bpeTokenizer.IsEOS (t : bpeTokenizer) (id : Nat) : Bool :=
  decide (0 ≤ t.eosTokenID) && (Int.ofNat id == t.eosTokenID)

/-- `argmax` of the Go source, accumulator form: running maximum starting
at `-1e30`, strict `>` so ties keep the lowest index. -/
def argmaxAux : List ℚ → ℚ → Nat → Nat → Nat
  | [], _, _, idx => idx
  | x :: rest, mx, i, idx =>
    if mx < x then argmaxAux rest x (i + 1) i
    else argmaxAux rest mx (i + 1) idx

/-- `argmax(v []float32) int` of the Go source. -/
def argmax (v : List ℚ) : Nat :=
  argmaxAux v (-(10 ^ 30 : ℚ)) 0 0

/-- Output of one session run: the tensor shape and its flat data
(Go: `tens.GetShape()`, `tens.GetData()`). -/
structure StepOut where
  shape : List Nat
  data : List ℚ

/-- The inference session, abstracted as a total function from the three
input tensors (`input_ids`, `attention_mask`, `position_ids`) to the output
tensor (spec §4.3 declares the session an external collaborator). -/
def GenSession : Type :=
  List Nat → List Nat → List Nat → StepOut

/-- Errors a generation loop can return. `cancelled` models the non-nil
`ctx.Err()` of a done context; `shape` models the "unexpected logits
shape" error. -/
inductive GenError where
  | shape : GenError
  | cancelled : GenError
deriving DecidableEq

/-- Result of a generation call, instrumented with the final live token
sequence and the number of executed steps (= session invocations) so the
loop invariants can be stated; `text` and `err` are the two values the Go
functions return. -/
structure GenResult where
  text : List Char
  ids : List Nat
  steps : Nat
  err : Option GenError
deriving DecidableEq

/-- One step's tensor construction, session run, and next-id selection,
shared verbatim by both Go loops: all-ones mask, position ids `0..n-1`,
rank-3 shape check, last-row slice, `argmax`.  Returns `none` on the shape
error. -/
def stepNext (sess : GenSession) (ids : List Nat) : Option Nat :=
  let mask := ids.map (fun _ => 1)
  let pos := List.range ids.length
  let o := sess ids mask pos
  if o.shape.length = 3 then
    let vocab := o.shape.getD 2 0
    let start := vocab * (o.shape.getD 1 0 - 1)
    some (argmax ((o.data.drop start).take vocab))
  else none

/-- The default-budget rule shared by both generation entry points
(Go: `if maxTokens <= 0 { maxTokens = 64 }`). -/
def genBudget (maxTokens : Int) : Nat :=
  if maxTokens ≤ 0 then 64 else maxTokens.toNat

/-- Prompt encoding and front-truncation shared by both entry points
(Go: `if len(ids) > q.maxLen { ids = ids[len(ids)-q.maxLen:] }`). -/
def genInitIds (tok : bpeTokenizer) (maxLen : Nat) (prompt : List Char) : List Nat :=
  let ids := tok.Encode prompt
  if maxLen < ids.length then ids.drop (ids.length - maxLen) else ids

/-- Loop body of `Generate`: per step run the session, append the argmax
id, drop the oldest token when the sequence exceeds `maxLen`, stop on EOS;
after the loop decode the entire sequence. -/
def generateAux (sess : GenSession) (tok : bpeTokenizer) (maxLen : Nat) :
    Nat → List Nat → Nat → GenResult
  | 0, ids, steps => ⟨tok.Decode ids, ids, steps, none⟩
  | fuel + 1, ids, steps =>
    match stepNext sess ids with
    | none => ⟨[], ids, steps + 1, some GenError.shape⟩
    | some next =>
      let ids2 := ids ++ [next]
      let ids3 := if maxLen < ids2.length then ids2.drop 1 else ids2
      if tok.IsEOS next then ⟨tok.Decode ids3, ids3, steps + 1, none⟩
      else generateAux sess tok maxLen fuel ids3 (steps + 1)

/-- `Generate` of the Go source (greedy, non-streaming). -/
def Generate (sess : GenSession) (tok : bpeTokenizer) (maxLen : Nat)
    (prompt : List Char) (maxTokens : Int) : GenResult :=
  generateAux sess tok maxLen (genBudget maxTokens) (genInitIds tok maxLen prompt) 0

/-- Loop body of `GenerateWithCallback`: per iteration `t`, first poll the
cancellation signal (returning the accumulated text and the context error
when set), then run the session and append the argmax id — with **no**
window truncation, faithful to the source — stop on EOS keeping the
previous `outText`, otherwise re-decode the whole sequence (the value also
passed to the callback, which does not influence the state). -/
def generateCBAux (sess : GenSession) (tok : bpeTokenizer)
    (cancelled : Nat → Bool) : Nat → Nat → List Nat → List Char → GenResult
  | 0, t, ids, outText => ⟨outText, ids, t, none⟩
  | fuel + 1, t, ids, outText =>
    if cancelled t then ⟨outText, ids, t, some GenError.cancelled⟩
    else
      match stepNext sess ids with
      | none => ⟨outText, ids, t + 1, some GenError.shape⟩
      | some next =>
        let ids2 := ids ++ [next]
        if tok.IsEOS next then ⟨outText, ids2, t + 1, none⟩
        else generateCBAux sess tok cancelled fuel (t + 1) ids2 (tok.Decode ids2)

/-- `GenerateWithCallback` of the Go source (greedy, streaming). -/
def GenerateWithCallback (sess : GenSession) (tok : bpeTokenizer)
    (maxLen : Nat) (cancelled : Nat → Bool) (prompt : List Char)
    (maxTokens : Int) : GenResult :=
  generateCBAux sess tok cancelled (genBudget maxTokens) 0
    (genInitIds tok maxLen prompt) []

/-- The state `(sequence, accumulated text)` of the streaming loop at the
boundary of iteration `n`, when the loop reaches that boundary: `none` as
soon as an earlier iteration was cancelled, hit the shape error, or emitted
EOS. -/
def cbTrace (sess : GenSession) (tok : bpeTokenizer) (cancelled : Nat → Bool)
    (ids0 : List Nat) : Nat → Option (List Nat × List Char)
  | 0 => some (ids0, [])
  | n + 1 =>
    match cbTrace sess tok cancelled ids0 n with
    | none => none
    | some (ids, _) =>
      if cancelled n then none
      else
        match stepNext sess ids with
        | none => none
        | some next =>
          if tok.IsEOS next then none
          else some (ids ++ [next], tok.Decode (ids ++ [next]))

/-! ## Concrete instances used by witnesses and counterexamples -/

/-- Tiny generation vocabulary: `a`→1, `b`→2. -/
def demoVocab : List (List Char × Nat) := [(['a'], 1), (['b'], 2)]

/-- Reverse table matching `demoVocab` (id 0 unresolvable). -/
def demoId2 : List (List Char) := [[], ['a'], ['b']]

/-- Generation tokenizer whose EOS id is 1. -/
def tokEOS : bpeTokenizer := ⟨demoVocab, demoId2, 1⟩

/-- Generation tokenizer with EOS detection disabled. -/
def tokNoEOS : bpeTokenizer := ⟨demoVocab, demoId2, -1⟩

/-- Session returning constant logits `[0, 1]` in a `(1,1,2)` tensor, so
`argmax` always selects id 1. -/
def sessConst : GenSession := fun _ _ _ => ⟨[1, 1, 2], [0, 1]⟩

/-- Vocabulary lines with `[PAD]` at the non-zero line 7. -/
def padVocabLines : List (List Char) :=
  [['[', 'C', 'L', 'S', ']'], ['[', 'S', 'E', 'P', ']'],
    ['[', 'U', 'N', 'K', ']'], ['a'], ['b'], ['c'], ['d'],
    ['[', 'P', 'A', 'D', ']']]

/-- WordPiece tokenizer loaded from `padVocabLines`: `clsID = 0`,
`sepID = 1`, `unkID = 2`, `padID = 7`. -/
def wpPad : wordPiece := loadWordPiece padVocabLines

/-- WordPiece vocabulary splitting `unable` into `un` + `##able`. -/
def wpDemoVocab : List (List Char × Nat) :=
  [(['u', 'n'], 1), (['#', '#', 'a', 'b', 'l', 'e'], 2)]

/-- WordPiece vocabulary containing only the bare marker `##`. -/
def hashOnlyVocab : List (List Char × Nat) := [((['#', '#'] : List Char), 5)]

/-- WordPiece vocabulary containing only the continuation piece `##a`. -/
def contVocab : List (List Char × Nat) := [((['#', '#', 'a'] : List Char), 9)]

/-! ## Facts about the longest-prefix search -/

/-- A successful search returns a piece length between 1 and the scanned
bound. -/
theorem findPieceFrom_bounds (vocab : List (List Char × Nat)) (isFirst : Bool)
    (tok : List Char) :
    ∀ k e id, findPieceFrom vocab isFirst tok k = some (e, id) →
      1 ≤ e ∧ e ≤ k := by
  intro k
  induction k with
  | zero => intro e id h; simp [findPieceFrom] at h
  | succ k ih =>
    intro e id h
    simp only [findPieceFrom] at h
    split at h
    · obtain ⟨he, _⟩ := Prod.mk.injEq .. ▸ Option.some.injEq .. ▸ h
      omega
    · have := ih e id h
      omega

/-- A successful search really found its candidate in the vocabulary. -/
theorem findPieceFrom_found (vocab : List (List Char × Nat)) (isFirst : Bool)
    (tok : List Char) :
    ∀ k e id, findPieceFrom vocab isFirst tok k = some (e, id) →
      wpLookup vocab (wpCandidate isFirst (tok.take e)) = some id := by
  intro k
  induction k with
  | zero => intro e id h; simp [findPieceFrom] at h
  | succ k ih =>
    intro e id h
    simp only [findPieceFrom] at h
    split at h
    next v heq =>
      obtain ⟨he, hv⟩ := Prod.mk.injEq .. ▸ Option.some.injEq .. ▸ h
      subst he; subst hv; exact heq
    next => exact ih e id h

/-- A successful search found the longest match: every strictly longer
prefix up to the scanned bound is absent from the vocabulary. -/
theorem findPieceFrom_max (vocab : List (List Char × Nat)) (isFirst : Bool)
    (tok : List Char) :
    ∀ k e id, findPieceFrom vocab isFirst tok k = some (e, id) →
      ∀ e2, e < e2 → e2 ≤ k →
        wpLookup vocab (wpCandidate isFirst (tok.take e2)) = none := by
  intro k
  induction k with
  | zero => intro e id h; simp [findPieceFrom] at h
  | succ k ih =>
    intro e id h e2 hlt hle
    simp only [findPieceFrom] at h
    split at h
    · obtain ⟨he, _⟩ := Prod.mk.injEq .. ▸ Option.some.injEq .. ▸ h
      omega
    next heq =>
      rcases Nat.lt_or_ge e2 (k + 1) with h2 | h2
      · exact ih e id h e2 hlt (by omega)
      · have : e2 = k + 1 := by omega
        subst this; exact heq

/-- A failed search means no prefix of any length down to one is in the
vocabulary. -/
theorem findPieceFrom_none (vocab : List (List Char × Nat)) (isFirst : Bool)
    (tok : List Char) :
    ∀ k, findPieceFrom vocab isFirst tok k = none →
      ∀ e2, 1 ≤ e2 → e2 ≤ k →
        wpLookup vocab (wpCandidate isFirst (tok.take e2)) = none := by
  intro k
  induction k with
  | zero => intro h e2 h1 h2; omega
  | succ k ih =>
    intro h e2 h1 h2
    simp only [findPieceFrom] at h
    split at h
    · exact absurd h (by simp)
    next heq =>
      rcases Nat.lt_or_ge e2 (k + 1) with hc | hc
      · exact ih h e2 h1 (by omega)
      · have : e2 = k + 1 := by omega
        subst this; exact heq

/-! ## Facts about the word loop -/

/-- The continuation-mode loop on the empty word yields nothing, at any
fuel. -/
theorem goRest_nil (vocab : List (List Char × Nat)) (unkID : Nat) :
    ∀ m, goRest vocab unkID m [] = [] := by
  intro m; cases m <;> simp [goRest]

/-- Fuel irrelevance: any fuel at least the word length runs the
continuation-mode loop to completion. -/
theorem goRest_congr (vocab : List (List Char × Nat)) (unkID : Nat) :
    ∀ n m (tok : List Char), tok.length ≤ n → tok.length ≤ m →
      goRest vocab unkID n tok = goRest vocab unkID m tok := by
  intro n
  induction n with
  | zero =>
    intro m tok hn _
    have : tok = [] := List.length_eq_zero.mp (by omega)
    subst this
    rw [goRest_nil, goRest_nil]
  | succ n ih =>
    intro m tok hn hm
    by_cases hemp : tok.isEmpty
    · have : tok = [] := List.isEmpty_iff.mp hemp
      subst this
      rw [goRest_nil, goRest_nil]
    · cases m with
      | zero =>
        have : tok = [] := List.length_eq_zero.mp (by omega)
        subst this
        simp at hemp
      | succ m =>
        cases hfp : findPiece vocab false tok with
        | none => simp [goRest, hemp, hfp]
        | some p =>
          obtain ⟨e, id⟩ := p
          have hb := findPieceFrom_bounds vocab false tok tok.length e id hfp
          simp only [goRest, hemp, hfp, if_neg hemp]
          have : (tok.drop e).length ≤ n := by
            simp only [List.length_drop]; omega
          have h2 : (tok.drop e).length ≤ m := by
            simp only [List.length_drop]; omega
          rw [ih m (tok.drop e) this h2]

/-- Resource bound: the continuation-mode loop emits at most one id per
character. -/
theorem goRest_len (vocab : List (List Char × Nat)) (unkID : Nat) :
    ∀ n (tok : List Char), tok.length ≤ n →
      (goRest vocab unkID n tok).length ≤ tok.length := by
  intro n
  induction n with
  | zero => intro tok h; simp [goRest]
  | succ n ih =>
    intro tok h
    by_cases hemp : tok.isEmpty
    · simp [goRest, hemp]
    · have hpos : 0 < tok.length := by
        cases tok with
        | nil => simp at hemp
        | cons a l => simp
      cases hfp : findPiece vocab false tok with
      | none => simp [goRest, hemp, hfp]; omega
      | some p =>
        obtain ⟨e, id⟩ := p
        have hb := findPieceFrom_bounds vocab false tok tok.length e id hfp
        simp only [goRest, if_neg hemp, hfp, List.length_cons]
        have hrec := ih (tok.drop e) (by simp only [List.length_drop]; omega)
        simp only [List.length_drop] at hrec
        omega

/-- A true `hashMarked` list starts with the marker character. -/
theorem hashMarked_mem (l : List Char) (h : hashMarked l = true) : '#' ∈ l := by
  match l with
  | [] => simp [hashMarked] at h
  | [a] => simp [hashMarked] at h
  | a :: b :: rest =>
    simp only [hashMarked, Bool.and_eq_true, beq_iff_eq] at h
    obtain ⟨ha, _⟩ := h
    subst ha
    exact List.mem_cons_self _ _

/-- For a word without the marker character, the first iteration consumes
exactly the matched piece length. -/
theorem firstCur_noHash (tok : List Char) (e : Nat) (hno : '#' ∉ tok)
    (h2 : e ≤ tok.length) : (firstCur tok e).length = e := by
  have hmt : hashMarked (tok.take e) = false := by
    cases hcm : hashMarked (tok.take e) with
    | false => rfl
    | true =>
      have := hashMarked_mem _ hcm
      exact absurd (List.take_subset e tok this) hno
  simp only [firstCur, hmt, Bool.false_eq_true, if_false, List.length_take]
  omega

/-- Nonempty words make the first search start at a positive length, so a
successful `findPiece` implies the word is nonempty. -/
theorem findPiece_ne_nil (vocab : List (List Char × Nat)) (isFirst : Bool)
    (tok : List Char) (e id : Nat)
    (h : findPiece vocab isFirst tok = some (e, id)) : tok ≠ [] := by
  intro hnil
  subst hnil
  simp [findPiece, findPieceFrom] at h

/-- Unfolding: a failed first search on a nonempty word emits exactly the
unknown id and stops. -/
theorem tokenizeWord_unk (vocab : List (List Char × Nat)) (unkID : Nat)
    (tok : List Char) (hne : tok ≠ [])
    (h : findPiece vocab true tok = none) :
    tokenizeWord vocab unkID tok = [unkID] := by
  have : tok.isEmpty = false := by
    cases tok with
    | nil => exact absurd rfl hne
    | cons a l => rfl
  simp [tokenizeWord, this, h]

/-- Unfolding: for a marker-free word, a successful first search emits the
found id and continues in continuation mode on the remainder after the
matched piece. -/
theorem tokenizeWord_step (vocab : List (List Char × Nat)) (unkID : Nat)
    (tok : List Char) (e id : Nat) (hno : '#' ∉ tok)
    (h : findPiece vocab true tok = some (e, id)) :
    tokenizeWord vocab unkID tok = id :: tokenizeRest vocab unkID (tok.drop e) := by
  have hne := findPiece_ne_nil vocab true tok e id h
  have hemp : tok.isEmpty = false := by
    cases tok with
    | nil => exact absurd rfl hne
    | cons a l => rfl
  have hb := findPieceFrom_bounds vocab true tok tok.length e id h
  have hcur : (firstCur tok e).length = e := firstCur_noHash tok e hno (by omega)
  simp only [tokenizeWord, hemp, Bool.false_eq_true, if_false, h, hcur, tokenizeRest]

/-- Unfolding: a failed continuation-mode search on a nonempty remainder
emits exactly the unknown id and stops. -/
theorem tokenizeRest_unk (vocab : List (List Char × Nat)) (unkID : Nat)
    (tok : List Char) (hne : tok ≠ [])
    (h : findPiece vocab false tok = none) :
    tokenizeRest vocab unkID tok = [unkID] := by
  cases tok with
  | nil => exact absurd rfl hne
  | cons a l => simp [tokenizeRest, goRest, h]

/-- Unfolding: a successful continuation-mode search emits the found id and
continues on the remainder after the matched piece. -/
theorem tokenizeRest_step (vocab : List (List Char × Nat)) (unkID : Nat)
    (tok : List Char) (e id : Nat)
    (h : findPiece vocab false tok = some (e, id)) :
    tokenizeRest vocab unkID tok = id :: tokenizeRest vocab unkID (tok.drop e) := by
  have hne := findPiece_ne_nil vocab false tok e id h
  have hb := findPieceFrom_bounds vocab false tok tok.length e id h
  cases htok : tok with
  | nil => exact absurd htok hne
  | cons a l =>
    rw [← htok]
    have hemp : tok.isEmpty = false := by rw [htok]; rfl
    have hlen : tok.length = l.length + 1 := by rw [htok]; rfl
    rw [tokenizeRest, hlen]
    simp only [goRest, hemp, Bool.false_eq_true, if_false, h]
    rw [tokenizeRest,
      goRest_congr vocab unkID l.length (tok.drop e).length (tok.drop e)
        (by simp only [List.length_drop]; omega)
        (le_refl _)]

/-! ## Claim C5 -/

/-- C5: for every basic token (marker-free word), `tokenizeWord` repeatedly
matches the longest vocabulary prefix of the remaining substring — the
first piece as-is, every later piece with `##` prepended — and on the first
search that finds no entry at any length down to one it appends exactly one
unknown id and stops.  Stated as: (1) a successful search returns a
vocabulary match of maximal length; (2) a failed search means no prefix of
any length matches; (3)–(6) the word loop unfolds accordingly in first and
continuation mode. -/
theorem c5_confirmed (vocab : List (List Char × Nat)) (unkID : Nat)
    (isFirst : Bool) (tok : List Char) :
    (∀ e id, findPiece vocab isFirst tok = some (e, id) →
      1 ≤ e ∧ e ≤ tok.length
        ∧ wpLookup vocab (wpCandidate isFirst (tok.take e)) = some id
        ∧ ∀ e2, e < e2 → e2 ≤ tok.length →
            wpLookup vocab (wpCandidate isFirst (tok.take e2)) = none)
  ∧ (findPiece vocab isFirst tok = none →
      ∀ e2, 1 ≤ e2 → e2 ≤ tok.length →
        wpLookup vocab (wpCandidate isFirst (tok.take e2)) = none)
  ∧ (tok ≠ [] → findPiece vocab true tok = none →
      tokenizeWord vocab unkID tok = [unkID])
  ∧ (∀ e id, '#' ∉ tok → findPiece vocab true tok = some (e, id) →
      tokenizeWord vocab unkID tok = id :: tokenizeRest vocab unkID (tok.drop e))
  ∧ (tok ≠ [] → findPiece vocab false tok = none →
      tokenizeRest vocab unkID tok = [unkID])
  ∧ (∀ e id, findPiece vocab false tok = some (e, id) →
      tokenizeRest vocab unkID tok = id :: tokenizeRest vocab unkID (tok.drop e)) := by
  refine ⟨?_, ?_, ?_, ?_, ?_, ?_⟩
  · intro e id h
    exact ⟨(findPieceFrom_bounds vocab isFirst tok tok.length e id h).1,
      (findPieceFrom_bounds vocab isFirst tok tok.length e id h).2,
      findPieceFrom_found vocab isFirst tok tok.length e id h,
      findPieceFrom_max vocab isFirst tok tok.length e id h⟩
  · intro h
    exact findPieceFrom_none vocab isFirst tok tok.length h
  · exact tokenizeWord_unk vocab unkID tok
  · intro e id hno h
    exact tokenizeWord_step vocab unkID tok e id hno h
  · exact tokenizeRest_unk vocab unkID tok
  · intro e id h
    exact tokenizeRest_step vocab unkID tok e id h

/-- Witness for C5: on the word `unable` with vocabulary
`{un ↦ 1, ##able ↦ 2}`, the first search finds `un` and the loop continues
in continuation mode on `able`; unfolding fully gives `[1, 2]`. -/
theorem c5_witness :
    tokenizeWord wpDemoVocab 9 ['u', 'n', 'a', 'b', 'l', 'e']
      = 1 :: tokenizeRest wpDemoVocab 9
          (List.drop 2 ['u', 'n', 'a', 'b', 'l', 'e'])
  ∧ tokenizeWord wpDemoVocab 9 ['u', 'n', 'a', 'b', 'l', 'e'] = [1, 2] :=
  ⟨(c5_confirmed wpDemoVocab 9 true ['u', 'n', 'a', 'b', 'l', 'e']).2.2.2.1
      2 1 (by decide) (by decide),
    by decide⟩

/-! ## Claim C10 -/

/-- C10 counterexample: on the word `##` with vocabulary `{## ↦ 5}`, the
first iteration matches the (nonempty) piece `##` yet consumes zero
characters — Go strips the marker from the matched candidate before
advancing — and the loop still continues, emitting a second id.  This
refutes the claim that each iteration either removes at least one byte or
appends the unknown id and exits. -/
theorem c10_counterexample :
    findPiece hashOnlyVocab true ['#', '#'] = some (2, 5)
  ∧ (firstCur ['#', '#'] 2).length = 0
  ∧ tokenizeWord hashOnlyVocab 77 ['#', '#'] = [5, 77] := by
  decide

/-- C10 (amended): `tokenizeWord` terminates on every finite input word —
the output carries at most one id per input character plus one — because
every continuation-mode iteration with a found piece consumes at least one
character, and for marker-free words (all basic tokens) the first iteration
does too, giving the tighter per-character bound. -/
theorem c10_amended (vocab : List (List Char × Nat)) (unkID : Nat)
    (tok : List Char) :
    (tokenizeWord vocab unkID tok).length ≤ tok.length + 1
  ∧ (∀ e id, findPiece vocab false tok = some (e, id) →
      (tok.drop e).length < tok.length)
  ∧ ('#' ∉ tok → (tokenizeWord vocab unkID tok).length ≤ max tok.length 1) := by
  refine ⟨?_, ?_, ?_⟩
  · by_cases hemp : tok.isEmpty
    · simp [tokenizeWord, hemp]
    · cases hfp : findPiece vocab true tok with
      | none => simp [tokenizeWord, hemp, hfp]
      | some p =>
        obtain ⟨e, id⟩ := p
        simp only [tokenizeWord, if_neg hemp, hfp, List.length_cons]
        have hg := goRest_len vocab unkID
          (tok.drop (firstCur tok e).length).length
          (tok.drop (firstCur tok e).length) (le_refl _)
        simp only [List.length_drop] at hg ⊢
        omega
  · intro e id h
    have hb := findPieceFrom_bounds vocab false tok tok.length e id h
    simp only [List.length_drop]
    omega
  · intro hno
    by_cases hemp : tok.isEmpty
    · simp [tokenizeWord, hemp]
    · have hpos : 0 < tok.length := by
        cases tok with
        | nil => simp at hemp
        | cons a l => simp
      cases hfp : findPiece vocab true tok with
      | none =>
        simp only [tokenizeWord, if_neg hemp, hfp, List.length_singleton]
        omega
      | some p =>
        obtain ⟨e, id⟩ := p
        have hb := findPieceFrom_bounds vocab true tok tok.length e id hfp
        have hcur : (firstCur tok e).length = e :=
          firstCur_noHash tok e hno (by omega)
        simp only [tokenizeWord, if_neg hemp, hfp, List.length_cons, hcur]
        have hg := goRest_len vocab unkID (tok.drop e).length (tok.drop e) (le_refl _)
        simp only [List.length_drop] at hg ⊢
        omega

/-- Witness for C10 (amended): with vocabulary `{##a ↦ 9}` the
continuation-mode search on `ab` finds the one-character piece `a`, which
strictly shrinks the remainder; and the full bound instantiated on `ab`. -/
theorem c10_witness :
    (List.drop 1 ['a', 'b']).length < (['a', 'b'] : List Char).length
  ∧ (tokenizeWord contVocab 7 ['a', 'b']).length ≤ (['a', 'b'] : List Char).length + 1 :=
  ⟨(c10_amended contVocab 7 ['a', 'b']).2.1 1 9 (by decide),
    (c10_amended contVocab 7 ['a', 'b']).1⟩

/-! ## Facts about the encoder's tensor layout -/

/-- Position lookup in a replicated list. -/
theorem replicate_getD (n a d k : Nat) :
    (List.replicate n a).getD k d = if k < n then a else d := by
  induction n generalizing k with
  | zero => simp
  | succ n ih =>
    cases k with
    | zero => simp [List.replicate]
    | succ k => simp only [List.replicate, List.getD_cons_succ, ih,
        Nat.succ_lt_succ_iff]

/-- Position lookup in an appended list. -/
theorem append_getD (l1 l2 : List Nat) (k d : Nat) :
    (l1 ++ l2).getD k d =
      if k < l1.length then l1.getD k d else l2.getD (k - l1.length) d := by
  induction l1 generalizing k with
  | nil => simp
  | cons a l ih =>
    cases k with
    | zero => simp
    | succ k =>
      simp only [List.cons_append, List.getD_cons_succ, ih, List.length_cons,
        Nat.succ_lt_succ_iff, Nat.succ_sub_succ]

/-- The live sequence never exceeds the configured width. -/
theorem wpLiveLen_le (w : wordPiece) (maxLen : Nat) (text : List Char) :
    wpLiveLen w maxLen text ≤ maxLen := by
  unfold wpLiveLen wpSeqT
  split
  · simp only [List.length_take]; omega
  · omega

/-- The live sequence is nonempty whenever the width is positive. -/
theorem wpLiveLen_pos (w : wordPiece) (m : Nat) (text : List Char) :
    0 < wpLiveLen w (m + 1) text := by
  unfold wpLiveLen wpSeqT wpWrapped
  split
  · simp only [List.length_take, List.length_cons]; omega
  · simp only [List.length_cons]; omega

/-- Contents of the id array: the live sequence on the initial prefix, the
literal id 0 beyond it. -/
theorem encode_ids_getD (w : wordPiece) (maxLen : Nat) (text : List Char)
    (k : Nat) :
    (encode w maxLen text).1.getD k 0 =
      if k < wpLiveLen w maxLen text then (wpSeqT w maxLen text).getD k 0
      else 0 := by
  simp only [encode, wpLiveLen, append_getD, replicate_getD]
  split
  · rfl
  · split <;> rfl

/-- Contents of the mask array: ones on the live prefix, zeros beyond. -/
theorem encode_mask_getD (w : wordPiece) (maxLen : Nat) (text : List Char)
    (k : Nat) :
    (encode w maxLen text).2.getD k 0 =
      if k < wpLiveLen w maxLen text then 1 else 0 := by
  simp only [encode, wpLiveLen, append_getD, replicate_getD, List.length_replicate]
  split
  · rfl
  · split <;> rfl

/-- The id array has width exactly `maxLen`. -/
theorem encode_ids_length (w : wordPiece) (maxLen : Nat) (text : List Char) :
    (encode w maxLen text).1.length = maxLen := by
  have h := wpLiveLen_le w maxLen text
  unfold wpLiveLen at h
  simp only [encode, List.length_append, List.length_replicate]
  omega

/-- The mask array has width exactly `maxLen`. -/
theorem encode_mask_length (w : wordPiece) (maxLen : Nat) (text : List Char) :
    (encode w maxLen text).2.length = maxLen := by
  have h := wpLiveLen_le w maxLen text
  unfold wpLiveLen at h
  simp only [encode, List.length_append, List.length_replicate]
  omega

/-- The live sequence starts with the sequence-start id whenever the width
is positive. -/
theorem wpSeqT_head (w : wordPiece) (m : Nat) (text : List Char) :
    (wpSeqT w (m + 1) text).getD 0 0 = w.clsID := by
  unfold wpSeqT wpWrapped
  split
  · rw [List.take_succ_cons]; rfl
  · rfl

/-! ## Claim C6 -/

/-- C6 counterexample: with a vocabulary file placing `[PAD]` at line 7,
the loaded tokenizer has `padID = 7`, yet `encode` writes the literal id 0
at the padding position (mask 0) — the padding id is not the pad id.  The
claim's "right-padded with the pad id" fails on the code. -/
theorem c6_counterexample :
    wpPad.padID = 7
  ∧ (encode wpPad 4 ['a']).2.getD 3 0 = 0
  ∧ (encode wpPad 4 ['a']).1.getD 3 99 = 0
  ∧ (encode wpPad 4 ['a']).1.getD 3 99 ≠ wpPad.padID := by
  decide

/-- C6 (amended): for every input text the encoder produces id and mask
arrays of width exactly `maxLen` (128 in `NewMiniLM`); a wrapped sequence
longer than the maximum is right-truncated to exactly the maximum; every
position beyond the live sequence holds the literal id 0 (the pad id
exactly when `[PAD]` resolves to 0, the Go default) under mask 0; and the
token-type-id tensor is all zeros. -/
theorem c6_amended (w : wordPiece) (maxLen : Nat) (text : List Char) :
    (encode w maxLen text).1.length = maxLen
  ∧ (encode w maxLen text).2.length = maxLen
  ∧ (∀ i, wpLiveLen w maxLen text ≤ i →
      (encode w maxLen text).1.getD i 0 = 0 ∧ (encode w maxLen text).2.getD i 0 = 0)
  ∧ (∀ i, i < wpLiveLen w maxLen text → (encode w maxLen text).2.getD i 0 = 1)
  ∧ (maxLen < (wpWrapped w text).length → wpLiveLen w maxLen text = maxLen)
  ∧ (∀ bsz s, ∀ x ∈ tokenTypeIds bsz s, x = 0)
  ∧ miniLMMaxLen = 128 := by
  refine ⟨encode_ids_length w maxLen text, encode_mask_length w maxLen text,
    ?_, ?_, ?_, ?_, rfl⟩
  · intro i hi
    rw [encode_ids_getD, encode_mask_getD, if_neg (by omega), if_neg (by omega)]
    exact ⟨rfl, rfl⟩
  · intro i hi
    rw [encode_mask_getD, if_pos hi]
  · intro h
    unfold wpLiveLen wpSeqT
    rw [if_pos h]
    simp only [List.length_take]
    omega
  · intro bsz s x hx
    exact List.eq_of_mem_replicate hx

/-- Witness for C6 (amended): instantiated on the concrete tokenizer
`wpPad` with width 4 and text `a` (live length 3): the arrays have length
4 and position 3 holds id 0 under mask 0. -/
theorem c6_witness :
    (encode wpPad 4 ['a']).1.length = 4
  ∧ ((encode wpPad 4 ['a']).1.getD 3 0 = 0 ∧ (encode wpPad 4 ['a']).2.getD 3 0 = 0) :=
  ⟨(c6_amended wpPad 4 ['a']).1,
    (c6_amended wpPad 4 ['a']).2.2.1 3 (by decide)⟩

/-! ## Claim C7 -/

/-- C7: for every input string — including the empty string and strings
with no vocabulary match — `Encode` returns a non-empty token sequence:
the direct-lookup variant falls back to the single placeholder id 0 when
nothing maps, and the WordPiece variant's live sequence always starts with
the sequence-start id (under mask 1) whenever the width is positive. -/
theorem c7_confirmed :
    (∀ (t : bpeTokenizer) (s : List Char), t.Encode s ≠ [])
  ∧ (∀ (t : bpeTokenizer) (s : List Char), strFields s = [] → t.Encode s = [0])
  ∧ (∀ (w : wordPiece) (maxLen : Nat) (text : List Char), 1 ≤ maxLen →
      (encode w maxLen text).1.getD 0 0 = w.clsID
        ∧ (encode w maxLen text).2.getD 0 0 = 1) := by
  refine ⟨?_, ?_, ?_⟩
  · intro t s
    simp only [bpeTokenizer.Encode]
    split
    · simp
    next h =>
      intro hc
      rw [hc] at h
      simp at h
  · intro t s h
    simp [bpeTokenizer.Encode, h]
  · intro w maxLen text hm
    obtain ⟨m, rfl⟩ : ∃ m, maxLen = m + 1 := ⟨maxLen - 1, by omega⟩
    have hlive := wpLiveLen_pos w m text
    constructor
    · rw [encode_ids_getD, if_pos hlive, wpSeqT_head]
    · rw [encode_mask_getD, if_pos hlive]

/-- Witness for C7: the empty prompt encodes to the placeholder `[0]` on
the generation path, and the concrete WordPiece encoder starts its live
sequence with `[CLS]`. -/
theorem c7_witness :
    tokEOS.Encode [] ≠ []
  ∧ tokEOS.Encode [] = [0]
  ∧ (encode wpPad 4 ['a']).1.getD 0 0 = wpPad.clsID :=
  ⟨c7_confirmed.1 tokEOS [],
    c7_confirmed.2.1 tokEOS [] (by decide),
    (c7_confirmed.2.2 wpPad 4 ['a'] (by decide)).1⟩

/-! ## Claim C9 -/

/-- C9: in the arrays returned by the embedding encoder the mask is 1 on an
initial prefix and 0 afterwards — it never has a 1 after a 0 — and every
position with mask 0 holds the literal id 0. -/
theorem c9_confirmed (w : wordPiece) (maxLen : Nat) (text : List Char)
    (i j : Nat) :
    (i ≤ j → (encode w maxLen text).2.getD j 0 = 1 →
      (encode w maxLen text).2.getD i 0 = 1)
  ∧ ((encode w maxLen text).2.getD i 0 = 0 →
      (encode w maxLen text).1.getD i 0 = 0) := by
  constructor
  · intro hij hj
    rw [encode_mask_getD] at hj ⊢
    split at hj
    next hlt => rw [if_pos (by omega)]
    next => simp at hj
  · intro h
    rw [encode_mask_getD] at h
    rw [encode_ids_getD]
    split at h
    next => simp at h
    next hge => rw [if_neg hge]

/-- Witness for C9: on the concrete encoder output `([0,3,1,0], [1,1,1,0])`
of width 4, mask 1 at position 2 forces mask 1 at position 1, and mask 0 at
position 3 forces id 0 there. -/
theorem c9_witness :
    (encode wpPad 4 ['a']).2.getD 1 0 = 1
  ∧ (encode wpPad 4 ['a']).1.getD 3 0 = 0 :=
  ⟨(c9_confirmed wpPad 4 ['a'] 1 2).1 (by decide) (by decide),
    (c9_confirmed wpPad 4 ['a'] 3 0).2 (by decide)⟩

/-! ## Facts about the generation loops -/

/-- Reaching a boundary: when the streaming loop's state trace is defined
at boundary `n ≤ budget`, the full run agrees with the run resumed at that
boundary with the remaining fuel. -/
theorem cbAux_reach (sess : GenSession) (tok : bpeTokenizer)
    (cancelled : Nat → Bool) (ids0 : List Nat) :
    ∀ n mt (idsn : List Nat) (outn : List Char), n ≤ mt →
      cbTrace sess tok cancelled ids0 n = some (idsn, outn) →
      generateCBAux sess tok cancelled mt 0 ids0 [] =
        generateCBAux sess tok cancelled (mt - n) n idsn outn := by
  intro n
  induction n with
  | zero =>
    intro mt idsn outn _ h
    simp only [cbTrace, Option.some.injEq, Prod.mk.injEq] at h
    rw [← h.1, ← h.2, Nat.sub_zero]
  | succ n ih =>
    intro mt idsn outn hle htr
    simp only [cbTrace] at htr
    cases hpre : cbTrace sess tok cancelled ids0 n with
    | none => rw [hpre] at htr; simp at htr
    | some p =>
      obtain ⟨ids, out⟩ := p
      rw [hpre] at htr
      simp only at htr
      cases hc : cancelled n with
      | true => rw [hc] at htr; simp at htr
      | false =>
        rw [hc] at htr
        simp only [Bool.false_eq_true, if_false] at htr
        cases hs : stepNext sess ids with
        | none => rw [hs] at htr; simp at htr
        | some next =>
          rw [hs] at htr
          simp only at htr
          cases he : tok.IsEOS next with
          | true => rw [he] at htr; simp at htr
          | false =>
            rw [he] at htr
            simp only [Bool.false_eq_true, if_false, Option.some.injEq,
              Prod.mk.injEq] at htr
            have hrw := ih mt ids out (by omega) hpre
            rw [hrw]
            have hmt : mt - n = (mt - (n + 1)) + 1 := by omega
            rw [hmt]
            simp only [generateCBAux, hc, Bool.false_eq_true, if_false, hs,
              he, ← htr.1, ← htr.2]

/-- The accumulated text at a reached boundary: empty before the first
step, and the decode of the current sequence after any completed step. -/
theorem cbTrace_text (sess : GenSession) (tok : bpeTokenizer)
    (cancelled : Nat → Bool) (ids0 : List Nat) :
    ∀ n (idsn : List Nat) (outn : List Char),
      cbTrace sess tok cancelled ids0 n = some (idsn, outn) →
      (n = 0 → idsn = ids0 ∧ outn = []) ∧
      (0 < n → outn = tok.Decode idsn) := by
  intro n idsn outn h
  cases n with
  | zero =>
    simp only [cbTrace, Option.some.injEq, Prod.mk.injEq] at h
    exact ⟨fun _ => ⟨h.1.symm, h.2.symm⟩, fun hc => absurd hc (by omega)⟩
  | succ n =>
    refine ⟨fun hc => absurd hc (by omega), fun _ => ?_⟩
    simp only [cbTrace] at h
    cases hpre : cbTrace sess tok cancelled ids0 n with
    | none => rw [hpre] at h; simp at h
    | some p =>
      obtain ⟨ids, out⟩ := p
      rw [hpre] at h
      simp only at h
      cases hc : cancelled n with
      | true => rw [hc] at h; simp at h
      | false =>
        rw [hc] at h
        simp only [Bool.false_eq_true, if_false] at h
        cases hs : stepNext sess ids with
        | none => rw [hs] at h; simp at h
        | some next =>
          rw [hs] at h
          simp only at h
          cases he : tok.IsEOS next with
          | true => rw [he] at h; simp at h
          | false =>
            rw [he] at h
            simp only [Bool.false_eq_true, if_false, Option.some.injEq,
              Prod.mk.injEq] at h
            rw [← h.1, ← h.2]

/-- Inside the non-streaming loop, an error-free result's text is the
decode of its final sequence. -/
theorem genAux_text (sess : GenSession) (tok : bpeTokenizer) (maxLen : Nat) :
    ∀ fuel (ids : List Nat) (steps : Nat),
      (generateAux sess tok maxLen fuel ids steps).err = none →
      (generateAux sess tok maxLen fuel ids steps).text =
        tok.Decode (generateAux sess tok maxLen fuel ids steps).ids := by
  intro fuel
  induction fuel with
  | zero => intro ids steps _; rfl
  | succ fuel ih =>
    intro ids steps herr
    cases hs : stepNext sess ids with
    | none => simp only [generateAux, hs] at herr; simp at herr
    | some next =>
      cases he : tok.IsEOS next with
      | true => simp [generateAux, hs, he]
      | false =>
        simp only [generateAux, hs, he, Bool.false_eq_true, if_false] at herr ⊢
        exact ih _ _ herr

/-- Inside the non-streaming loop the window invariant is preserved: from
a sequence within `maxLen` the final sequence stays within `maxLen`. -/
theorem genAux_window (sess : GenSession) (tok : bpeTokenizer) (maxLen : Nat) :
    ∀ fuel (ids : List Nat) (steps : Nat), ids.length ≤ maxLen →
      (generateAux sess tok maxLen fuel ids steps).ids.length ≤ maxLen := by
  intro fuel
  induction fuel with
  | zero => intro ids steps h; exact h
  | succ fuel ih =>
    intro ids steps h
    cases hs : stepNext sess ids with
    | none => simp only [generateAux, hs]; exact h
    | some next =>
      have harg : (if maxLen < (ids ++ [next]).length then (ids ++ [next]).drop 1
          else ids ++ [next]).length ≤ maxLen := by
        by_cases hlen : maxLen < (ids ++ [next]).length
        · rw [if_pos hlen]
          simp only [List.length_drop, List.length_append, List.length_singleton] at hlen ⊢
          omega
        · rw [if_neg hlen]
          omega
      cases he : tok.IsEOS next with
      | true => simp only [generateAux, hs, he, if_true]; exact harg
      | false =>
        simp only [generateAux, hs, he, Bool.false_eq_true, if_false]
        exact ih _ _ harg

/-- The truncated prompt always fits the window. -/
theorem genInitIds_le (tok : bpeTokenizer) (maxLen : Nat) (prompt : List Char)
    (h : 0 < maxLen) : (genInitIds tok maxLen prompt).length ≤ maxLen := by
  unfold genInitIds
  by_cases hc : maxLen < (tok.Encode prompt).length
  · rw [if_pos hc]
    simp only [List.length_drop]
    omega
  · rw [if_neg hc]
    omega

/-! ## Claim C1 -/

/-- C1 counterexample: with a session whose argmax id is the EOS id,
`Generate("a", maxTokens = 0)` executes one step (one session invocation)
and returns the non-empty decode `"a a"` — not the empty string with zero
steps: the code replaces a non-positive budget by the default 64 instead of
returning immediately. -/
theorem c1_counterexample :
    (Generate sessConst tokEOS 512 ['a'] 0).steps = 1
  ∧ (Generate sessConst tokEOS 512 ['a'] 0).text = ['a', ' ', 'a']
  ∧ (Generate sessConst tokEOS 512 ['a'] 0).text ≠ []
  ∧ (Generate sessConst tokEOS 512 ['a'] 0).steps ≠ 0 := by
  decide

/-- C1 (amended): calling `Generate` with `maxTokens = 0` does not return
early; the budget defaults to 64, so the call behaves exactly like
`Generate` with `maxTokens = 64` — running the normal loop, which may
execute steps and invoke the session. -/
theorem c1_amended (sess : GenSession) (tok : bpeTokenizer) (maxLen : Nat)
    (prompt : List Char) :
    Generate sess tok maxLen prompt 0 = Generate sess tok maxLen prompt 64 := rfl

/-! ## Claim C2 -/

/-- C2 counterexample: a cancellation observed at the very first step
boundary makes `GenerateWithCallback` return the context error — a
non-nil error — not the nil error the claim states. -/
theorem c2_counterexample :
    (GenerateWithCallback sessConst tokNoEOS 512 (fun _ => true) ['a'] 5).err
      = some GenError.cancelled
  ∧ (GenerateWithCallback sessConst tokNoEOS 512 (fun _ => true) ['a'] 5).err
      ≠ none := by
  decide

/-- C2 (amended): if the cancellation signal is observed at the boundary of
step `n` of the streaming loop (the loop having reached that boundary
within budget), the loop stops within that step and returns the text
accumulated so far — the decode of the sequence as of the last completed
step, or the empty text when no step completed — together with the
context's cancellation error (non-nil). -/
theorem c2_amended (sess : GenSession) (tok : bpeTokenizer) (maxLen : Nat)
    (cancelled : Nat → Bool) (prompt : List Char) (maxTokens : Int)
    (n : Nat) (idsn : List Nat) (outn : List Char)
    (hlt : n < genBudget maxTokens)
    (htr : cbTrace sess tok cancelled (genInitIds tok maxLen prompt) n
      = some (idsn, outn))
    (hc : cancelled n = true) :
    GenerateWithCallback sess tok maxLen cancelled prompt maxTokens
      = ⟨outn, idsn, n, some GenError.cancelled⟩
  ∧ (0 < n → outn = tok.Decode idsn)
  ∧ (n = 0 → outn = []) := by
  refine ⟨?_,
    fun hp => (cbTrace_text sess tok cancelled _ n idsn outn htr).2 hp,
    fun h0 => ((cbTrace_text sess tok cancelled _ n idsn outn htr).1 h0).2⟩
  unfold GenerateWithCallback
  rw [cbAux_reach sess tok cancelled _ n (genBudget maxTokens) idsn outn
    (Nat.le_of_lt hlt) htr]
  have hsplit : genBudget maxTokens - n = (genBudget maxTokens - n - 1) + 1 := by
    omega
  rw [hsplit]
  simp [generateCBAux, hc]

/-- Witness for C2 (amended): cancellation at boundary 1 after one
completed step returns the decode `"a a"` of the two-token sequence with
the cancellation error. -/
theorem c2_witness :
    GenerateWithCallback sessConst tokNoEOS 512 (fun t => t == 1) ['a'] 5
      = ⟨['a', ' ', 'a'], [1, 1], 1, some GenError.cancelled⟩
  ∧ ['a', ' ', 'a'] = tokNoEOS.Decode [1, 1] :=
  have h := c2_amended sessConst tokNoEOS 512 (fun t => t == 1) ['a'] 5 1
    [1, 1] ['a', ' ', 'a'] (by decide) (by decide) (by decide)
  ⟨h.1, h.2.1 (by decide)⟩

/-! ## Claim C3 -/

/-- C3: evaluation at the failing input.  With context window `maxLen = 2`
and the two-token prompt `"a b"`, two streaming steps grow the sequence to
length 4 — `GenerateWithCallback` never drops the oldest token — while
`Generate` on the same input keeps the window invariant with final length
2.  The claim that both loops maintain `length ≤ maxLen` is right about the
intent and wrong about the streaming code. -/
theorem c3_bug :
    (GenerateWithCallback sessConst tokNoEOS 2 (fun _ => false) ['a', ' ', 'b'] 2).ids
      = [1, 2, 1, 1]
  ∧ (GenerateWithCallback sessConst tokNoEOS 2 (fun _ => false) ['a', ' ', 'b'] 2).ids.length
      = 4
  ∧ (Generate sessConst tokNoEOS 2 ['a', ' ', 'b'] 2).ids.length = 2 := by
  decide

/-! ## Claim C4 -/

/-- C4 counterexample: when the streaming loop terminates by emitting the
EOS id, the returned text is the decode from before the final append (here
the empty text), not the decode of the final sequence (here `"a a"`). -/
theorem c4_counterexample :
    (GenerateWithCallback sessConst tokEOS 512 (fun _ => false) ['a'] 5).text = []
  ∧ tokEOS.Decode
      ((GenerateWithCallback sessConst tokEOS 512 (fun _ => false) ['a'] 5).ids)
      = ['a', ' ', 'a']
  ∧ (GenerateWithCallback sessConst tokEOS 512 (fun _ => false) ['a'] 5).text
      ≠ tokEOS.Decode
        ((GenerateWithCallback sessConst tokEOS 512 (fun _ => false) ['a'] 5).ids) := by
  decide

/-- C4 (amended): `Generate` always returns the decode of its entire final
sequence (for every error-free termination: EOS or budget exhaustion), and
`GenerateWithCallback` does so on budget exhaustion — but on end-of-sequence
termination the streaming variant returns the text decoded before the EOS
id was appended, so its returned string excludes the final step's token. -/
theorem c4_amended :
    (∀ (sess : GenSession) (tok : bpeTokenizer) (maxLen : Nat)
        (prompt : List Char) (maxTokens : Int),
      (Generate sess tok maxLen prompt maxTokens).err = none →
      (Generate sess tok maxLen prompt maxTokens).text =
        tok.Decode (Generate sess tok maxLen prompt maxTokens).ids)
  ∧ (∀ (sess : GenSession) (tok : bpeTokenizer) (maxLen : Nat)
        (cancelled : Nat → Bool) (prompt : List Char) (maxTokens : Int)
        (idsn : List Nat) (outn : List Char),
      cbTrace sess tok cancelled (genInitIds tok maxLen prompt)
          (genBudget maxTokens) = some (idsn, outn) →
      GenerateWithCallback sess tok maxLen cancelled prompt maxTokens
          = ⟨outn, idsn, genBudget maxTokens, none⟩
        ∧ (0 < genBudget maxTokens → outn = tok.Decode idsn))
  ∧ (∀ (sess : GenSession) (tok : bpeTokenizer) (maxLen : Nat)
        (cancelled : Nat → Bool) (prompt : List Char) (maxTokens : Int)
        (n : Nat) (idsn : List Nat) (outn : List Char) (next : Nat),
      n < genBudget maxTokens →
      cbTrace sess tok cancelled (genInitIds tok maxLen prompt) n
        = some (idsn, outn) →
      cancelled n = false →
      stepNext sess idsn = some next →
      tok.IsEOS next = true →
      GenerateWithCallback sess tok maxLen cancelled prompt maxTokens
        = ⟨outn, idsn ++ [next], n + 1, none⟩) := by
  refine ⟨?_, ?_, ?_⟩
  · intro sess tok maxLen prompt maxTokens herr
    exact genAux_text sess tok maxLen (genBudget maxTokens)
      (genInitIds tok maxLen prompt) 0 herr
  · intro sess tok maxLen cancelled prompt maxTokens idsn outn htr
    constructor
    · unfold GenerateWithCallback
      rw [cbAux_reach sess tok cancelled _ (genBudget maxTokens)
        (genBudget maxTokens) idsn outn (le_refl _) htr]
      rw [Nat.sub_self]
      rfl
    · intro hp
      exact (cbTrace_text sess tok cancelled _ _ idsn outn htr).2 hp
  · intro sess tok maxLen cancelled prompt maxTokens n idsn outn next
      hlt htr hcanc hstep heos
    unfold GenerateWithCallback
    rw [cbAux_reach sess tok cancelled _ n (genBudget maxTokens) idsn outn
      (Nat.le_of_lt hlt) htr]
    have hsplit : genBudget maxTokens - n = (genBudget maxTokens - n - 1) + 1 := by
      omega
    rw [hsplit]
    simp [generateCBAux, hcanc, hstep, heos]

/-- Witness for C4 (amended): a two-step budget-exhaustion run returns the
full decode `"a a a"` of the final three-token sequence. -/
theorem c4_witness :
    GenerateWithCallback sessConst tokNoEOS 512 (fun _ => false) ['a'] 2
      = ⟨['a', ' ', 'a', ' ', 'a'], [1, 1, 1], 2, none⟩
  ∧ ['a', ' ', 'a', ' ', 'a'] = tokNoEOS.Decode [1, 1, 1] :=
  have h := c4_amended.2.1 sessConst tokNoEOS 512 (fun _ => false) ['a'] 2
    [1, 1, 1] ['a', ' ', 'a', ' ', 'a'] (by decide)
  ⟨h.1, h.2 (by decide)⟩

/-! ## Claim C8 -/

/-- Indexing the embedder's output: position `i` holds `embedOne` of input
`i`. -/
theorem hashEmbed_getD (sq : ℚ → ℚ) :
    ∀ (inputs : List (List Char)) (i : Nat), i < inputs.length →
      (hashEmbed sq inputs).getD i [] = embedOne sq (inputs.getD i []) := by
  intro inputs
  induction inputs with
  | nil => intro i h; simp at h
  | cons a l ih =>
    intro i h
    cases i with
    | zero => rfl
    | succ i =>
      simp only [hashEmbed, List.map_cons, List.getD_cons_succ]
      exact ih i (by simpa using h)

/-- C8: `Embed` of the hash backend is deterministic — equal input lists
give equal outputs, equal texts within one call give identical vectors (in
particular `Embed(["x","x"])` yields two identical vectors) — for every
abstracted square-root function, i.e. independently of the floating-point
normalisation. -/
theorem c8_confirmed :
    (∀ (sq : ℚ → ℚ) (ins1 ins2 : List (List Char)), ins1 = ins2 →
      hashEmbed sq ins1 = hashEmbed sq ins2)
  ∧ (∀ (sq : ℚ → ℚ) (inputs : List (List Char)) (i j : Nat),
      i < inputs.length → j < inputs.length →
      inputs.getD i [] = inputs.getD j [] →
      (hashEmbed sq inputs).getD i [] = (hashEmbed sq inputs).getD j [])
  ∧ (∀ (sq : ℚ → ℚ) (x : List Char), ∃ v, hashEmbed sq [x, x] = [v, v]) := by
  refine ⟨?_, ?_, ?_⟩
  · intro sq ins1 ins2 h
    rw [h]
  · intro sq inputs i j hi hj heq
    rw [hashEmbed_getD sq inputs i hi, hashEmbed_getD sq inputs j hj, heq]
  · intro sq x
    exact ⟨embedOne sq x, rfl⟩

/-- Witness for C8: the two equal texts of `Embed(["x","x"])` receive
identical vectors. -/
theorem c8_witness :
    (hashEmbed (fun q => q) [['x'], ['x']]).getD 0 []
      = (hashEmbed (fun q => q) [['x'], ['x']]).getD 1 [] :=
  c8_confirmed.2.1 (fun q => q) [['x'], ['x']] 0 1 (by decide) (by decide)
    (by decide)
